import Mathlib

/-!
Verification of the DDA single-step integrator (src/DDA.pl/dda.h).

The C fragment defines one function, `__integrate`, in two preprocessor
variants selected at build time: the TRAPEZ branch updates the accumulator
by `*i -= (y + *y_old) / 2. * dx; *y_old = y;`, the default (Euler) branch
by `*i -= y * dx;`, and the RK branch is empty (no `__integrate` defined).
Scalars (C `double`) are modelled as exact rationals; the in/out pointer
pair `(i, y_old)` becomes an explicit state record threaded through calls.
-/

/-- State threaded through `__integrate`: the accumulator `i` and the
previous sample `y_old` (only the TRAPEZ branch reads or writes `y_old`). -/
structure DDAState where
  i : ℚ
  y_old : ℚ
  deriving DecidableEq, Repr

/-- Euler branch of `__integrate` (dda.h lines 12-15): `*i -= y * dx;`.
The `y_old` slot is untouched. -/
def integrateEuler (s : DDAState) (y dx : ℚ) : DDAState :=
  { s with i := s.i - y * dx }

/-- TRAPEZ branch of `__integrate` (dda.h lines 4-9):
`*i -= (y + *y_old) / 2. * dx;` followed by `*y_old = y;`. -/
def integrateTrapez (s : DDAState) (y dx : ℚ) : DDAState :=
  { i := s.i - (y + s.y_old) / 2 * dx, y_old := y }

/-- The compile-time strategy selector of dda.h: the `TRAPEZ` and `RK`
preprocessor symbols (lines 1-2), with Euler as the default branch. -/
inductive Strategy where
  | EULER
  | TRAPEZ
  | RK
  deriving DecidableEq, Repr

/-- Preprocessor dispatch of dda.h: which `__integrate` a given build
provides.  The `#elif defined RK` branch (line 10) has an empty body, so an
RK build provides no `__integrate` at all: selecting RK is a recognized
configuration whose invocation fails (modelled as `none`) rather than a
silent no-op. -/
def integrateImpl : Strategy → Option (DDAState → ℚ → ℚ → DDAState)
  | Strategy.EULER => some integrateEuler
  | Strategy.TRAPEZ => some integrateTrapez
  | Strategy.RK => none

/-- Repeated invocation by the outer DDA driver: one `__integrate` call per
`(sample, stepSize)` pair, in order. -/
def runSteps (f : DDAState → ℚ → ℚ → DDAState) (s : DDAState)
    (steps : List (ℚ × ℚ)) : DDAState :=
  steps.foldl (fun st p => f st p.1 p.2) s

/-- A linearly-varying signal `t ↦ a * t + b` sampled at the right endpoint
of each step: starting from time `t`, each step of width `dx` supplies the
sample taken at `t + dx`. -/
def linSamples (a b t : ℚ) : List ℚ → List (ℚ × ℚ)
  | [] => []
  | dx :: rest => (a * (t + dx) + b, dx) :: linSamples a b (t + dx) rest

/-- Closed-form integral of `t ↦ a * t + b` from `t0` to `t0 + Σ steps`. -/
def exactInt (a b t0 : ℚ) (steps : List ℚ) : ℚ :=
  a * ((t0 + steps.sum) ^ 2 - t0 ^ 2) / 2 + b * steps.sum

/-- The first sample the driver supplies for a linear signal (used to seed
`y_old` before the first Trapezoidal call); for an empty step sequence the
sample at the starting time. -/
def firstSample (a b t0 : ℚ) : List ℚ → ℚ
  | [] => a * t0 + b
  | dx :: _ => a * (t0 + dx) + b

/-- Sum of the squares of the step sizes. -/
def sumSq (steps : List ℚ) : ℚ :=
  (steps.map (fun dx => dx ^ 2)).sum

theorem runSteps_nil (f : DDAState → ℚ → ℚ → DDAState) (s : DDAState) :
    runSteps f s [] = s := rfl

theorem runSteps_cons (f : DDAState → ℚ → ℚ → DDAState) (s : DDAState)
    (p : ℚ × ℚ) (l : List (ℚ × ℚ)) :
    runSteps f s (p :: l) = runSteps f (f s p.1 p.2) l := rfl

/-- Claim C1: for every accumulator value `a`, sample `y`, step size `dx`
(and any `y_old` contents), the Euler variant of `__integrate` returns an
updated accumulator equal to `a - y * dx`. -/
theorem euler_step_effect (a yo y dx : ℚ) :
    (integrateEuler ⟨a, yo⟩ y dx).i = a - y * dx := rfl

/-- Claim C2: for every accumulator value `a`, sample `y`, step size `dx`
and previous sample `yo`, the Trapezoidal variant of `__integrate` returns
an updated accumulator equal to `a - (y + yo) / 2 * dx` and afterwards
stores `y` as the previous sample. -/
theorem trapez_step_effect (a yo y dx : ℚ) :
    (integrateTrapez ⟨a, yo⟩ y dx).i = a - (y + yo) / 2 * dx ∧
    (integrateTrapez ⟨a, yo⟩ y dx).y_old = y :=
  ⟨rfl, rfl⟩

/-- Claim C3: selecting the RungeKutta strategy is a recognized
configuration (a constructor of `Strategy`, distinct from the other two)
whose invocation fails explicitly: the build provides no `__integrate`
(`integrateImpl Strategy.RK = none`), so it is never a silent no-op and
never leaves the accumulator undefined, while the Euler and TRAPEZ
configurations do provide an implementation. -/
theorem rk_not_implemented :
    integrateImpl Strategy.RK = none ∧
    Strategy.RK ≠ Strategy.EULER ∧ Strategy.RK ≠ Strategy.TRAPEZ ∧
    integrateImpl Strategy.EULER = some integrateEuler ∧
    integrateImpl Strategy.TRAPEZ = some integrateTrapez := by
  refine ⟨rfl, ?_, ?_, rfl, rfl⟩ <;> simp

/-- Claim C6: a single call to either the Euler or the Trapezoidal variant
of `__integrate` with `stepSize = 0` leaves the accumulator unchanged,
regardless of the sample and previous-sample values. -/
theorem zero_step_preserves_accumulator (a yo y : ℚ) :
    (integrateEuler ⟨a, yo⟩ y 0).i = a ∧
    (integrateTrapez ⟨a, yo⟩ y 0).i = a := by
  constructor <;> simp [integrateEuler, integrateTrapez]

/-- Claim C8: the Euler variant of `__integrate` never modifies `y_old` on
any input: only the accumulator is written. -/
theorem euler_preserves_y_old (s : DDAState) (y dx : ℚ) :
    (integrateEuler s y dx).y_old = s.y_old := rfl

/-- Claim C9: two calls to the Euler variant of `__integrate` that agree on
accumulator, sample and step size but differ in `y_old` produce identical
accumulators: Euler's output does not depend on the previous sample. -/
theorem euler_independent_of_y_old (a y dx yo1 yo2 : ℚ) :
    (integrateEuler ⟨a, yo1⟩ y dx).i = (integrateEuler ⟨a, yo2⟩ y dx).i := rfl

theorem euler_run_replicate (c d : ℚ) :
    ∀ (n : ℕ) (a0 yo : ℚ),
      (runSteps integrateEuler ⟨a0, yo⟩ (List.replicate n (c, d))).i
        = a0 - n * c * d := by
  intro n
  induction n with
  | zero => intro a0 yo; simp [runSteps]
  | succ k ih =>
      intro a0 yo
      rw [List.replicate_succ, runSteps_cons]
      rw [show integrateEuler ⟨a0, yo⟩ (c, d).1 (c, d).2 = ⟨a0 - c * d, yo⟩ from rfl]
      rw [ih (a0 - c * d) yo]
      push_cast
      ring

theorem trapez_run_replicate (c d : ℚ) :
    ∀ (n : ℕ) (a0 : ℚ),
      (runSteps integrateTrapez ⟨a0, c⟩ (List.replicate n (c, d))).i
        = a0 - n * c * d := by
  intro n
  induction n with
  | zero => intro a0; simp [runSteps]
  | succ k ih =>
      intro a0
      rw [List.replicate_succ, runSteps_cons]
      have hstep : integrateTrapez ⟨a0, c⟩ (c, d).1 (c, d).2 = ⟨a0 - c * d, c⟩ := by
        simp only [integrateTrapez]
        congr 1
        ring
      rw [hstep, ih (a0 - c * d)]
      push_cast
      ring

/-- Claim C4: applying the Euler variant of `__integrate` `n` times with
constant sample `c` and constant step size `d` from accumulator `a0` yields
`a0 - n * c * d`; in particular `a0 = 0`, `c = 2`, `d = 1`, `n = 5` yields
`-10`. -/
theorem euler_constant_signal :
    (∀ (a0 c d yo : ℚ) (n : ℕ),
      (runSteps integrateEuler ⟨a0, yo⟩ (List.replicate n (c, d))).i
        = a0 - n * c * d) ∧
    (runSteps integrateEuler ⟨0, 0⟩ (List.replicate 5 ((2 : ℚ), (1 : ℚ)))).i
      = -10 := by
  constructor
  · intro a0 c d yo n; exact euler_run_replicate c d n a0 yo
  · rw [euler_run_replicate 2 1 5 0 0]; norm_num

/-- Claim C5: applying the Trapezoidal variant `n` times with constant
sample `c` and step `d`, with `y_old` seeded to `c`, yields exactly the
same final accumulator as applying the Euler variant `n` times on the same
inputs; in particular `a0 = 0`, `c = 2`, `d = 1`, `n = 5`, seed `2` yields
`-10`. -/
theorem trapez_constant_signal_matches_euler :
    (∀ (a0 c d yo : ℚ) (n : ℕ),
      (runSteps integrateTrapez ⟨a0, c⟩ (List.replicate n (c, d))).i
        = (runSteps integrateEuler ⟨a0, yo⟩ (List.replicate n (c, d))).i) ∧
    (runSteps integrateTrapez ⟨0, 2⟩ (List.replicate 5 ((2 : ℚ), (1 : ℚ)))).i
      = -10 := by
  constructor
  · intro a0 c d yo n
    rw [trapez_run_replicate c d n a0, euler_run_replicate c d n a0 yo]
  · rw [trapez_run_replicate 2 1 5 0]; norm_num

theorem euler_run_sum (steps : List (ℚ × ℚ)) :
    ∀ (a0 yo : ℚ),
      (runSteps integrateEuler ⟨a0, yo⟩ steps).i
        = a0 - (steps.map (fun p => p.1 * p.2)).sum := by
  induction steps with
  | nil => intro a0 yo; simp [runSteps]
  | cons p rest ih =>
      intro a0 yo
      rw [runSteps_cons]
      rw [show integrateEuler ⟨a0, yo⟩ p.1 p.2 = ⟨a0 - p.1 * p.2, yo⟩ from rfl]
      rw [ih (a0 - p.1 * p.2) yo]
      simp
      ring

/-- Claim C10: for every starting accumulator and every finite sequence of
`(sample, stepSize)` pairs, applying the Euler variant of `__integrate`
once per pair yields the same final accumulator under any permutation of
the sequence: Euler step order is immaterial (exact arithmetic). -/
theorem euler_perm_invariant (a0 yo : ℚ) (l1 l2 : List (ℚ × ℚ))
    (h : l1.Perm l2) :
    (runSteps integrateEuler ⟨a0, yo⟩ l1).i
      = (runSteps integrateEuler ⟨a0, yo⟩ l2).i := by
  rw [euler_run_sum l1 a0 yo, euler_run_sum l2 a0 yo]
  rw [List.Perm.sum_eq (List.Perm.map (fun p => p.1 * p.2) h)]

/-- Witness for Claim C10 at a concrete swapped pair of step lists. -/
theorem euler_perm_invariant_witness :
    (([((1 : ℚ), (2 : ℚ)), ((3 : ℚ), (4 : ℚ))] : List (ℚ × ℚ)).Perm
       [((3 : ℚ), (4 : ℚ)), ((1 : ℚ), (2 : ℚ))]) ∧
    (runSteps integrateEuler ⟨0, 0⟩
        ([((1 : ℚ), (2 : ℚ)), ((3 : ℚ), (4 : ℚ))] : List (ℚ × ℚ))).i
      = (runSteps integrateEuler ⟨0, 0⟩
          ([((3 : ℚ), (4 : ℚ)), ((1 : ℚ), (2 : ℚ))] : List (ℚ × ℚ))).i :=
  ⟨List.Perm.swap _ _ _,
   euler_perm_invariant 0 0 _ _ (List.Perm.swap _ _ _)⟩

theorem euler_run_linear (a b : ℚ) :
    ∀ (steps : List ℚ) (t0 a0 yo : ℚ),
      (runSteps integrateEuler ⟨a0, yo⟩ (linSamples a b t0 steps)).i
        = a0 - exactInt a b t0 steps - a / 2 * sumSq steps := by
  intro steps
  induction steps with
  | nil =>
      intro t0 a0 yo
      simp [linSamples, runSteps, exactInt, sumSq]
  | cons dx rest ih =>
      intro t0 a0 yo
      rw [show linSamples a b t0 (dx :: rest)
          = (a * (t0 + dx) + b, dx) :: linSamples a b (t0 + dx) rest from rfl]
      rw [runSteps_cons]
      rw [show integrateEuler ⟨a0, yo⟩ (a * (t0 + dx) + b, dx).1
            (a * (t0 + dx) + b, dx).2
          = ⟨a0 - (a * (t0 + dx) + b) * dx, yo⟩ from rfl]
      rw [ih (t0 + dx) (a0 - (a * (t0 + dx) + b) * dx) yo]
      simp only [exactInt, sumSq, List.sum_cons, List.map_cons]
      ring

theorem trapez_run_linear (a b : ℚ) :
    ∀ (steps : List ℚ) (t0 a0 : ℚ),
      (runSteps integrateTrapez ⟨a0, a * t0 + b⟩ (linSamples a b t0 steps)).i
        = a0 - exactInt a b t0 steps := by
  intro steps
  induction steps with
  | nil =>
      intro t0 a0
      simp [linSamples, runSteps, exactInt]
  | cons dx rest ih =>
      intro t0 a0
      rw [show linSamples a b t0 (dx :: rest)
          = (a * (t0 + dx) + b, dx) :: linSamples a b (t0 + dx) rest from rfl]
      rw [runSteps_cons]
      rw [show integrateTrapez ⟨a0, a * t0 + b⟩ (a * (t0 + dx) + b, dx).1
            (a * (t0 + dx) + b, dx).2
          = ⟨a0 - (a * (t0 + dx) + b + (a * t0 + b)) / 2 * dx,
             a * (t0 + dx) + b⟩ from rfl]
      rw [ih (t0 + dx) (a0 - (a * (t0 + dx) + b + (a * t0 + b)) / 2 * dx)]
      simp only [exactInt, List.sum_cons]
      ring

theorem sumSq_nonneg (steps : List ℚ) : 0 ≤ sumSq steps := by
  refine List.sum_nonneg ?_
  intro x hx
  simp only [List.mem_map] at hx
  obtain ⟨dx, _, rfl⟩ := hx
  positivity

/-- Claim C7: for every linearly-varying sample sequence (signal
`t ↦ a * t + b` sampled at the right endpoint of each step), every step
sequence and every starting accumulator, the absolute error of the final
accumulator produced by repeated Trapezoidal steps (with `y_old` seeded to
the first sample) against the closed-form integral of the signal is at most
the absolute error of the Euler run on the same inputs.  The reference
value is `a0 - exactInt` since the accumulator tracks the negative
integral. -/
theorem trapez_error_le_euler_error (a b t0 a0 : ℚ) (steps : List ℚ) :
    |(runSteps integrateTrapez ⟨a0, firstSample a b t0 steps⟩
        (linSamples a b t0 steps)).i - (a0 - exactInt a b t0 steps)|
      ≤ |(runSteps integrateEuler ⟨a0, firstSample a b t0 steps⟩
          (linSamples a b t0 steps)).i - (a0 - exactInt a b t0 steps)| := by
  cases steps with
  | nil => exact le_rfl
  | cons dx rest =>
      have heuler := euler_run_linear a b (dx :: rest) t0 a0
        (firstSample a b t0 (dx :: rest))
      have hTrap :
          (runSteps integrateTrapez ⟨a0, firstSample a b t0 (dx :: rest)⟩
            (linSamples a b t0 (dx :: rest))).i
            = a0 - exactInt a b t0 (dx :: rest) - a / 2 * dx ^ 2 := by
        rw [show firstSample a b t0 (dx :: rest) = a * (t0 + dx) + b from rfl]
        rw [show linSamples a b t0 (dx :: rest)
            = (a * (t0 + dx) + b, dx) :: linSamples a b (t0 + dx) rest from rfl]
        rw [runSteps_cons]
        rw [show integrateTrapez ⟨a0, a * (t0 + dx) + b⟩
              (a * (t0 + dx) + b, dx).1 (a * (t0 + dx) + b, dx).2
            = ⟨a0 - (a * (t0 + dx) + b + (a * (t0 + dx) + b)) / 2 * dx,
               a * (t0 + dx) + b⟩ from rfl]
        rw [trapez_run_linear a b rest (t0 + dx)
          (a0 - (a * (t0 + dx) + b + (a * (t0 + dx) + b)) / 2 * dx)]
        simp only [exactInt, List.sum_cons]
        ring
      rw [hTrap, heuler]
      have h1 : a0 - exactInt a b t0 (dx :: rest) - a / 2 * dx ^ 2
          - (a0 - exactInt a b t0 (dx :: rest)) = -(a / 2 * dx ^ 2) := by ring
      have h2 : a0 - exactInt a b t0 (dx :: rest)
            - a / 2 * sumSq (dx :: rest)
          - (a0 - exactInt a b t0 (dx :: rest))
          = -(a / 2 * sumSq (dx :: rest)) := by ring
      rw [h1, h2, abs_neg, abs_neg, abs_mul, abs_mul]
      rw [abs_of_nonneg (show (0 : ℚ) ≤ dx ^ 2 by positivity)]
      rw [abs_of_nonneg (sumSq_nonneg (dx :: rest))]
      refine mul_le_mul_of_nonneg_left ?_ (abs_nonneg (a / 2))
      rw [show sumSq (dx :: rest) = dx ^ 2 + sumSq rest by simp [sumSq]]
      exact le_add_of_nonneg_right (sumSq_nonneg rest)
